import Mathlib

/-!
Verification of rollup-plugin-tagged-template-postcss.

Shallow embedding of the plugin's core pipeline: the output escaper
(src/transforms.js), the tag configuration resolver (makeTagMap and
resolvePostcssConfig in src/index.js / src/plugin.js), the region locator
(findTransformTargets in src/targets.js, the walk in src/index.js), the
content transform runner (makeTransformRanges in src/targets.js, the loop in
src/index.js), and the range splicer (delegated by the source to the external
ranges-push / ranges-apply packages, modelled here from the spec).

Strings are embedded as List Char (one element per code point); JavaScript
objects used as option bags are embedded as association lists from key names
to values.
-/

/-- The backslash character, written out once so escapes stay readable. -/
def backslashChar : Char := '\\'

/-- The template-literal delimiter character (code point 96). -/
def backtickChar : Char := Char.ofNat 96

/-- The character that opens an interpolation placeholder together with
the open brace. -/
def dollarChar : Char := '$'

/-- The open-brace character (code point 123). -/
def openBraceChar : Char := Char.ofNat 123

/-- Embeds escapeBackslash of src/transforms.js: contents.replace of every
backslash by a doubled backslash, scanning left to right. -/
def escapeBackslash : List Char → List Char
  | [] => []
  | c :: rest =>
    if c = backslashChar then backslashChar :: backslashChar :: escapeBackslash rest
    else c :: escapeBackslash rest

/-- Embeds escapeBacktick of src/transforms.js: contents.replace of every
delimiter character by a backslash followed by the delimiter. -/
def escapeBacktick : List Char → List Char
  | [] => []
  | c :: rest =>
    if c = backtickChar then backslashChar :: backtickChar :: escapeBacktick rest
    else c :: escapeBacktick rest

/-- Embeds escapePlaceholderOpening of src/transforms.js: contents.replace of
every two-character placeholder opening (dollar sign, open brace) by the same
two characters prefixed with one backslash; matches are found left to right
and do not overlap, exactly as a global regex replace scans. -/
def escapePlaceholderOpening : List Char → List Char
  | [] => []
  | [c] => [c]
  | c1 :: c2 :: rest =>
    if c1 = dollarChar ∧ c2 = openBraceChar then
      backslashChar :: dollarChar :: openBraceChar :: escapePlaceholderOpening rest
    else
      c1 :: escapePlaceholderOpening (c2 :: rest)

/-- Embeds pipe.now of the arrows composition package as src/index.js and
src/targets.js use it: the value threaded through the transform functions
from left to right. -/
def pipeNow (x : List Char) (fs : List (List Char → List Char)) : List Char :=
  fs.foldl (fun acc f => f acc) x

/-- Embeds standardOutputTransform of src/transforms.js: the pipe of the
three escaping passes, backslashes first. -/
def standardOutputTransform : List Char → List Char :=
  fun contents => pipeNow contents [escapeBackslash, escapeBacktick, escapePlaceholderOpening]

/-- Whether the text contains the two-character placeholder-opening sequence. -/
def containsPlaceholderOpening : List Char → Bool
  | [] => false
  | [_] => false
  | c1 :: c2 :: rest =>
    if c1 = dollarChar ∧ c2 = openBraceChar then true
    else containsPlaceholderOpening (c2 :: rest)

/-- Left-to-right scan in which a backslash consumes the character after it:
true when the text holds no un-escaped delimiter character and no un-escaped
placeholder-opening sequence. -/
def escapedScanFree : List Char → Bool
  | [] => true
  | [c] => if c = backtickChar then false else true
  | c1 :: c2 :: rest =>
    if c1 = backslashChar then escapedScanFree rest
    else if c1 = backtickChar then false
    else if c1 = dollarChar ∧ c2 = openBraceChar then false
    else escapedScanFree (c2 :: rest)

/-- Proof helper: the three escaping passes fused into one scan. Its equality
with the composition of the three passes is proved in fusedEscape_eq. -/
def fusedEscape : List Char → List Char
  | [] => []
  | [c] =>
    if c = backslashChar then [backslashChar, backslashChar]
    else if c = backtickChar then [backslashChar, backtickChar]
    else [c]
  | c1 :: c2 :: rest =>
    if c1 = backslashChar then backslashChar :: backslashChar :: fusedEscape (c2 :: rest)
    else if c1 = backtickChar then backslashChar :: backtickChar :: fusedEscape (c2 :: rest)
    else if c1 = dollarChar ∧ c2 = openBraceChar then
      backslashChar :: dollarChar :: openBraceChar :: fusedEscape rest
    else c1 :: fusedEscape (c2 :: rest)

theorem backslash_ne_backtick : backslashChar ≠ backtickChar := by decide

theorem backslash_ne_dollar : backslashChar ≠ dollarChar := by decide

theorem backslash_ne_brace : backslashChar ≠ openBraceChar := by decide

theorem backtick_ne_brace : backtickChar ≠ openBraceChar := by decide

theorem brace_ne_backslash : openBraceChar ≠ backslashChar := by decide

theorem brace_ne_backtick : openBraceChar ≠ backtickChar := by decide

theorem brace_ne_dollar : openBraceChar ≠ dollarChar := by decide

theorem escBs_cons_eq (X : List Char) :
    escapeBackslash (backslashChar :: X) =
      backslashChar :: backslashChar :: escapeBackslash X := rfl

theorem escBs_cons_ne (c : Char) (X : List Char) (h : c ≠ backslashChar) :
    escapeBackslash (c :: X) = c :: escapeBackslash X := by
  simp only [escapeBackslash, if_neg h]

theorem escBt_cons_eq (X : List Char) :
    escapeBacktick (backtickChar :: X) =
      backslashChar :: backtickChar :: escapeBacktick X := rfl

theorem escBt_cons_ne (c : Char) (X : List Char) (h : c ≠ backtickChar) :
    escapeBacktick (c :: X) = c :: escapeBacktick X := by
  simp only [escapeBacktick, if_neg h]

theorem escPh_cons_ne_dollar (c : Char) (X : List Char) (h : c ≠ dollarChar) :
    escapePlaceholderOpening (c :: X) = c :: escapePlaceholderOpening X := by
  cases X with
  | nil => rfl
  | cons x xs =>
    simp only [escapePlaceholderOpening, if_neg (fun hc => h (And.left hc))]

theorem escPh_dollar_no_brace (X : List Char) (h : X.head? ≠ some openBraceChar) :
    escapePlaceholderOpening (dollarChar :: X) = dollarChar :: escapePlaceholderOpening X := by
  cases X with
  | nil => rfl
  | cons x xs =>
    have hx : x ≠ openBraceChar := fun hb => h (by simp [hb])
    simp [escapePlaceholderOpening, hx]

theorem escPh_open (rest : List Char) :
    escapePlaceholderOpening (dollarChar :: openBraceChar :: rest) =
      backslashChar :: dollarChar :: openBraceChar :: escapePlaceholderOpening rest := rfl

theorem fused_bs (c2 : Char) (rest : List Char) :
    fusedEscape (backslashChar :: c2 :: rest) =
      backslashChar :: backslashChar :: fusedEscape (c2 :: rest) := rfl

theorem fused_bt (c2 : Char) (rest : List Char) :
    fusedEscape (backtickChar :: c2 :: rest) =
      backslashChar :: backtickChar :: fusedEscape (c2 :: rest) := rfl

theorem fused_open (rest : List Char) :
    fusedEscape (dollarChar :: openBraceChar :: rest) =
      backslashChar :: dollarChar :: openBraceChar :: fusedEscape rest := rfl

theorem fused_other (c1 c2 : Char) (rest : List Char) (h1 : c1 ≠ backslashChar)
    (h2 : c1 ≠ backtickChar) (h3 : ¬(c1 = dollarChar ∧ c2 = openBraceChar)) :
    fusedEscape (c1 :: c2 :: rest) = c1 :: fusedEscape (c2 :: rest) := by
  simp only [fusedEscape, if_neg h1, if_neg h2, if_neg h3]

theorem fused_one (c : Char) (h1 : c ≠ backslashChar) (h2 : c ≠ backtickChar) :
    fusedEscape [c] = [c] := by
  simp only [fusedEscape, if_neg h1, if_neg h2]

/-- The head of escapeBacktick composed with escapeBackslash on a nonempty
text is not the open brace unless the original head was. -/
theorem compHead_ne_brace (c : Char) (s : List Char) (hc : c ≠ openBraceChar) :
    (escapeBacktick (escapeBackslash (c :: s))).head? ≠ some openBraceChar := by
  by_cases hbs : c = backslashChar
  · subst hbs
    rw [escBs_cons_eq, escBt_cons_ne _ _ backslash_ne_backtick]
    simp [backslash_ne_brace]
  · rw [escBs_cons_ne _ _ hbs]
    by_cases hbt : c = backtickChar
    · subst hbt
      rw [escBt_cons_eq]
      simp [backslash_ne_brace]
    · rw [escBt_cons_ne _ _ hbt]
      simp [hc]

/-- The fused scan equals the composition of the three escaping passes
applied in the source's order. -/
theorem fusedEscape_eq (s : List Char) :
    fusedEscape s = escapePlaceholderOpening (escapeBacktick (escapeBackslash s)) := by
  induction s using fusedEscape.induct with
  | case1 => rfl
  | case2 => decide
  | case3 _ => decide
  | case4 c h1 h2 =>
    rw [fused_one c h1 h2, escBs_cons_ne c [] h1]
    show [c] = escapePlaceholderOpening (escapeBacktick [c])
    rw [escBt_cons_ne c [] h2]
    rfl
  | case5 c2 rest ih =>
    rw [fused_bs, escBs_cons_eq, escBt_cons_ne _ _ backslash_ne_backtick,
      escBt_cons_ne _ _ backslash_ne_backtick,
      escPh_cons_ne_dollar _ _ backslash_ne_dollar,
      escPh_cons_ne_dollar _ _ backslash_ne_dollar, ih]
  | case6 c2 rest _ ih =>
    rw [fused_bt, escBs_cons_ne _ _ backslash_ne_backtick.symm, escBt_cons_eq,
      escPh_cons_ne_dollar _ _ backslash_ne_dollar,
      escPh_cons_ne_dollar _ _ (by decide : backtickChar ≠ dollarChar), ih]
  | case7 c1 c2 rest h1 h2 h3 ih =>
    obtain ⟨hd, hb⟩ := h3
    subst hd
    subst hb
    rw [fused_open, escBs_cons_ne _ _ backslash_ne_dollar.symm,
      escBs_cons_ne _ _ brace_ne_backslash,
      escBt_cons_ne _ _ (by decide : dollarChar ≠ backtickChar),
      escBt_cons_ne _ _ brace_ne_backtick, escPh_open, ih]
  | case8 c1 c2 rest h1 h2 h3 ih =>
    rw [fused_other c1 c2 rest h1 h2 h3]
    by_cases hd : c1 = dollarChar
    · subst hd
      have hc2 : c2 ≠ openBraceChar := fun hb => h3 ⟨rfl, hb⟩
      rw [escBs_cons_ne _ _ backslash_ne_dollar.symm,
        escBt_cons_ne _ _ (by decide : dollarChar ≠ backtickChar),
        escPh_dollar_no_brace _ (compHead_ne_brace c2 rest hc2), ih]
    · rw [escBs_cons_ne _ _ h1, escBt_cons_ne _ _ h2, escPh_cons_ne_dollar _ _ hd, ih]

theorem scanFree_bs (x : Char) (X : List Char) :
    escapedScanFree (backslashChar :: x :: X) = escapedScanFree X := rfl

theorem scanFree_other (c : Char) (X : List Char) (h1 : c ≠ backslashChar)
    (h2 : c ≠ backtickChar) (h3 : c ≠ dollarChar) :
    escapedScanFree (c :: X) = escapedScanFree X := by
  cases X with
  | nil =>
    simp only [escapedScanFree]
    rw [if_neg h2]
  | cons x xs =>
    simp only [escapedScanFree]
    rw [if_neg h1, if_neg h2, if_neg (fun hc => h3 hc.1)]

theorem scanFree_dollar (X : List Char) (h : X.head? ≠ some openBraceChar) :
    escapedScanFree (dollarChar :: X) = escapedScanFree X := by
  cases X with
  | nil =>
    simp only [escapedScanFree]
    rw [if_neg (by decide : ¬dollarChar = backtickChar)]
  | cons x xs =>
    have hx : x ≠ openBraceChar := fun hb => h (by simp [hb])
    simp only [escapedScanFree]
    rw [if_neg backslash_ne_dollar.symm, if_neg (by decide : ¬dollarChar = backtickChar),
      if_neg (fun hc => hx hc.2)]

/-- The head of the fused escape of a nonempty text is either a backslash or
the original head character. -/
theorem fused_head (c : Char) (s : List Char) :
    (fusedEscape (c :: s)).head? = some backslashChar ∨
      (fusedEscape (c :: s)).head? = some c := by
  cases s with
  | nil =>
    by_cases hbs : c = backslashChar
    · subst hbs
      right
      decide
    · by_cases hbt : c = backtickChar
      · subst hbt
        left
        decide
      · rw [fused_one c hbs hbt]
        right
        rfl
  | cons c2 rest =>
    by_cases hbs : c = backslashChar
    · subst hbs
      rw [fused_bs]
      left
      rfl
    · by_cases hbt : c = backtickChar
      · subst hbt
        rw [fused_bt]
        left
        rfl
      · by_cases hph : c = dollarChar ∧ c2 = openBraceChar
        · obtain ⟨hd, hb⟩ := hph
          subst hd
          subst hb
          rw [fused_open]
          left
          rfl
        · rw [fused_other c c2 rest hbs hbt hph]
          right
          rfl

/-- The fused escape leaves no un-escaped delimiter and no un-escaped
placeholder opening. -/
theorem fused_scanFree (s : List Char) : escapedScanFree (fusedEscape s) = true := by
  induction s using fusedEscape.induct with
  | case1 => rfl
  | case2 => decide
  | case3 _ => decide
  | case4 c h1 h2 =>
    rw [fused_one c h1 h2]
    simp only [escapedScanFree]
    rw [if_neg h2]
  | case5 c2 rest ih =>
    rw [fused_bs, scanFree_bs]
    exact ih
  | case6 c2 rest _ ih =>
    rw [fused_bt, scanFree_bs]
    exact ih
  | case7 c1 c2 rest h1 h2 h3 ih =>
    obtain ⟨hd, hb⟩ := h3
    subst hd
    subst hb
    rw [fused_open, scanFree_bs,
      scanFree_other _ _ brace_ne_backslash brace_ne_backtick brace_ne_dollar]
    exact ih
  | case8 c1 c2 rest h1 h2 h3 ih =>
    rw [fused_other c1 c2 rest h1 h2 h3]
    by_cases hd : c1 = dollarChar
    · subst hd
      have hc2 : c2 ≠ openBraceChar := fun hb => h3 ⟨rfl, hb⟩
      have hhead : (fusedEscape (c2 :: rest)).head? ≠ some openBraceChar := by
        rcases fused_head c2 rest with h | h
        · rw [h]
          simp [backslash_ne_brace]
        · rw [h]
          simp [hc2]
      rw [scanFree_dollar _ hhead]
      exact ih
    · rw [scanFree_other _ _ h1 h2 hd]
      exact ih

/-- The fused escape never loses a backslash. -/
theorem fused_count (s : List Char) :
    s.count backslashChar ≤ (fusedEscape s).count backslashChar := by
  induction s using fusedEscape.induct with
  | case1 => simp [fusedEscape]
  | case2 => decide
  | case3 _ => decide
  | case4 c h1 h2 => rw [fused_one c h1 h2]
  | case5 c2 rest ih =>
    rw [fused_bs]
    simp only [List.count_cons] at ih ⊢
    omega
  | case6 c2 rest _ ih =>
    rw [fused_bt]
    simp only [List.count_cons] at ih ⊢
    omega
  | case7 c1 c2 rest h1 h2 h3 ih =>
    obtain ⟨hd, hb⟩ := h3
    subst hd
    subst hb
    rw [fused_open]
    simp only [List.count_cons] at ih ⊢
    omega
  | case8 c1 c2 rest h1 h2 h3 ih =>
    rw [fused_other c1 c2 rest h1 h2 h3]
    simp only [List.count_cons] at ih ⊢
    omega

/-- Text with no backslash, no delimiter and no placeholder opening passes
through the fused escape unchanged. -/
theorem fused_unchanged (s : List Char) (h1 : backslashChar ∉ s)
    (h2 : backtickChar ∉ s) (h3 : containsPlaceholderOpening s = false) :
    fusedEscape s = s := by
  induction s using fusedEscape.induct with
  | case1 => rfl
  | case2 => exact absurd (List.mem_singleton.mpr rfl) h1
  | case3 _ => exact absurd (List.mem_singleton.mpr rfl) h2
  | case4 c hc1 hc2 => exact fused_one c hc1 hc2
  | case5 c2 rest ih =>
    exact absurd (List.mem_cons_self _ _) h1
  | case6 c2 rest _ ih =>
    exact absurd (List.mem_cons_self _ _) h2
  | case7 c1 c2 rest hc1 hc2 hc3 ih =>
    exfalso
    have : containsPlaceholderOpening (c1 :: c2 :: rest) = true := by
      simp only [containsPlaceholderOpening]
      rw [if_pos hc3]
    rw [h3] at this
    exact Bool.false_ne_true this
  | case8 c1 c2 rest hc1 hc2 hc3 ih =>
    rw [fused_other c1 c2 rest hc1 hc2 hc3]
    have h1' : backslashChar ∉ c2 :: rest := fun hm => h1 (List.mem_cons_of_mem _ hm)
    have h2' : backtickChar ∉ c2 :: rest := fun hm => h2 (List.mem_cons_of_mem _ hm)
    have h3' : containsPlaceholderOpening (c2 :: rest) = false := by
      have := h3
      simp only [containsPlaceholderOpening] at this
      rwa [if_neg hc3] at this
    rw [ih h1' h2' h3']

theorem standardOutputTransform_as_comp (s : List Char) :
    standardOutputTransform s =
      escapePlaceholderOpening (escapeBacktick (escapeBackslash s)) := rfl

/-- Claim C4: the standard output transform is exactly the composition of the
three substitution passes, in the order backslash doubling, then delimiter
escaping, then placeholder-opening escaping; and input containing none of
these characters is returned unchanged. -/
theorem standardOutputTransform_three_passes (s : List Char) :
    standardOutputTransform s =
        escapePlaceholderOpening (escapeBacktick (escapeBackslash s)) ∧
      (backslashChar ∉ s → backtickChar ∉ s →
        containsPlaceholderOpening s = false → standardOutputTransform s = s) := by
  refine ⟨standardOutputTransform_as_comp s, fun h1 h2 h3 => ?_⟩
  rw [standardOutputTransform_as_comp s, ← fusedEscape_eq]
  exact fused_unchanged s h1 h2 h3

/-- Claim C5: the standard output transform never loses a backslash, and its
output contains no un-escaped delimiter character and no un-escaped
placeholder-opening sequence (scanning left to right with a backslash
consuming the character after it). -/
theorem standardOutputTransform_safe (s : List Char) :
    s.count backslashChar ≤ (standardOutputTransform s).count backslashChar ∧
      escapedScanFree (standardOutputTransform s) = true := by
  rw [standardOutputTransform_as_comp s, ← fusedEscape_eq]
  exact ⟨fused_count s, fused_scanFree s⟩

/-! ## Tag configuration resolver (makeTagMap, resolvePostcssConfig) -/

/-- A JavaScript option value: either a string (such as a module id) or an
opaque external value (a parser, stringifier or syntax object), identified by
a token. -/
inductive JsVal where
  | str (s : String)
  | ext (n : Nat)
deriving DecidableEq

/-- The user-supplied PostCSS config object: the plugins key (absent when the
object does not define it) and the remaining keys as an association list, as
destructured by resolvePostcssConfig in src/index.js / src/plugin.js. Plugins
are opaque values identified by tokens. -/
structure PostcssConfigJs where
  plugins : Option (List Nat)
  options : List (String × JsVal)

/-- The resolved PostCSS config of src/index.js / src/plugin.js: a plugin
list and the recognized option subset. -/
structure ResolvedPostcssConfig where
  plugins : List Nat
  options : List (String × JsVal)

/-- The acceptedOptions list of resolvePostcssConfig. -/
def acceptedOptions : List String := ["parser", "stringifier", "syntax"]

/-- Embeds lodash pick as used by resolvePostcssConfig: keep exactly the
entries whose key is among the given keys. -/
def pick (obj : List (String × JsVal)) (keys : List String) : List (String × JsVal) :=
  obj.filter (fun kv => keys.contains kv.1)

/-- Embeds resolvePostcssConfig of src/index.js / src/plugin.js. The
postcss-load-config discovery collaborator is passed in as a value of
Except: an error models a rejected postcssrc() call. -/
def resolvePostcssConfig (discover : Except String ResolvedPostcssConfig) :
    Option PostcssConfigJs → Except String ResolvedPostcssConfig
  | some cfg =>
    .ok { plugins := cfg.plugins.getD [], options := pick cfg.options acceptedOptions }
  | none =>
    match discover with
    | .ok loadResult =>
      .ok { plugins := loadResult.plugins, options := pick loadResult.options acceptedOptions }
    | .error e => .error e

/-- Embeds the ProcessTagConfig objects built by makeTagMap. -/
structure ProcessTagConfig where
  postcssConfig : ResolvedPostcssConfig
  outputTransforms : List (List Char → List Char)

/-- Embeds one TaggedTemplatePostcssOptions object (the fields the core
pipeline reads; include and exclude belong to the out-of-core filter). A
missing or null outputTransforms field is none; note that an explicit empty
array is some [] and is truthy in JavaScript. -/
structure TaggedTemplatePostcssOptions where
  tags : List String
  postcss : Option PostcssConfigJs
  outputTransforms : Option (List (List Char → List Char))

/-- The tag map: JavaScript Map iteration order is insertion order, so an
association list in insertion order embeds it. -/
abbrev TagMap := List (String × ProcessTagConfig)

/-- Embeds Map.has. -/
def tagMapHas (m : TagMap) (tag : String) : Bool :=
  m.any (fun kv => kv.1 == tag)

/-- The duplicate-tag error message thrown by makeTagMap. -/
def dupTagMsg (tag : String) : String :=
  "PostCSS config already defined for tagged template literal " ++ tag

/-- The TraceError wrapper makeTagMap puts around a failed config
resolution. -/
def wrapCfgMsg (e : String) : String :=
  "PostCSS config missing for tag set: " ++ e

/-- The inner loop of makeTagMap over one options object's tag list:
fail on an already-present tag, otherwise insert. -/
def addTags (ptc : ProcessTagConfig) : List String → TagMap → Except String TagMap
  | [], m => .ok m
  | tag :: rest, m =>
    if tagMapHas m tag then .error (dupTagMsg tag)
    else addTags ptc rest (m ++ [(tag, ptc)])

/-- The outer loop of makeTagMap over the options objects. -/
def makeTagMapGo (discover : Except String ResolvedPostcssConfig) :
    List TaggedTemplatePostcssOptions → TagMap → Except String TagMap
  | [], m => .ok m
  | o :: os, m =>
    match resolvePostcssConfig discover o.postcss with
    | .error e => .error (wrapCfgMsg e)
    | .ok postcssConfig =>
      match addTags
          { postcssConfig
            outputTransforms := o.outputTransforms.getD [standardOutputTransform] }
          o.tags m with
      | .error e => .error e
      | .ok m2 => makeTagMapGo discover os m2

/-- Embeds makeTagMap of src/index.js / src/plugin.js (the options argument
already normalized to an array, as the source's first lines do). The default
for outputTransforms is taken only when the field is absent, because the
source's logical-or sees an empty array as truthy. -/
def makeTagMap (discover : Except String ResolvedPostcssConfig)
    (pluginOptions : List TaggedTemplatePostcssOptions) : Except String TagMap :=
  makeTagMapGo discover pluginOptions []

/-- The value resolvePostcssConfig produces when discovery succeeds. -/
def resolveValue (d : ResolvedPostcssConfig) : Option PostcssConfigJs → ResolvedPostcssConfig
  | some cfg => { plugins := cfg.plugins.getD [], options := pick cfg.options acceptedOptions }
  | none => { plugins := d.plugins, options := pick d.options acceptedOptions }

theorem resolve_eq_ok (d : ResolvedPostcssConfig) (pc : Option PostcssConfigJs) :
    resolvePostcssConfig (.ok d) pc = .ok (resolveValue d pc) := by
  cases pc <;> rfl

theorem tagMapHas_iff (m : TagMap) (tag : String) :
    tagMapHas m tag = true ↔ tag ∈ m.map Prod.fst := by
  simp [tagMapHas, List.any_eq_true, List.mem_map]

theorem addTags_ok (ptc : ProcessTagConfig) :
    ∀ (tags : List String) (m : TagMap), ((m.map Prod.fst) ++ tags).Nodup →
      addTags ptc tags m = .ok (m ++ tags.map (fun t => (t, ptc))) := by
  intro tags
  induction tags with
  | nil =>
    intro m _
    simp [addTags]
  | cons t rest ih =>
    intro m h
    have hnotin : t ∉ m.map Prod.fst := by
      rw [List.nodup_append] at h
      exact fun hmem => h.2.2 hmem (List.mem_cons_self t rest)
    have hhas : tagMapHas m t = false := by
      rw [← Bool.not_eq_true, tagMapHas_iff]
      exact hnotin
    have hstep : ((m ++ [(t, ptc)]).map Prod.fst ++ rest).Nodup := by
      rw [List.map_append, List.append_assoc]
      simpa using h
    rw [addTags, if_neg (by simp [hhas]), ih (m ++ [(t, ptc)]) hstep]
    simp

theorem addTags_dup (ptc : ProcessTagConfig) :
    ∀ (tags : List String) (m : TagMap), (m.map Prod.fst).Nodup →
      ¬((m.map Prod.fst) ++ tags).Nodup →
      ∃ t, addTags ptc tags m = .error (dupTagMsg t) := by
  intro tags
  induction tags with
  | nil =>
    intro m hm h
    exact absurd (by simpa using hm) h
  | cons t rest ih =>
    intro m hm h
    by_cases ht : t ∈ m.map Prod.fst
    · refine ⟨t, ?_⟩
      rw [addTags, if_pos (by rw [tagMapHas_iff]; exact ht)]
    · have hhas : tagMapHas m t = false := by
        rw [← Bool.not_eq_true, tagMapHas_iff]
        exact ht
      have hm2 : ((m ++ [(t, ptc)]).map Prod.fst).Nodup := by
        rw [List.map_append]
        simp only [List.map_cons, List.map_nil]
        rw [List.nodup_append]
        refine ⟨hm, List.nodup_singleton t, ?_⟩
        intro a ha hb
        rw [List.mem_singleton] at hb
        subst hb
        exact ht ha
      have h2 : ¬(((m ++ [(t, ptc)]).map Prod.fst) ++ rest).Nodup := by
        rw [List.map_append, List.append_assoc]
        simpa using h
      obtain ⟨t', ht'⟩ := ih (m ++ [(t, ptc)]) hm2 h2
      refine ⟨t', ?_⟩
      rw [addTags, if_neg (by simp [hhas]), ht']

/-- The ProcessTagConfig makeTagMap builds for one options object when
discovery succeeds. -/
def optionPtc (d : ResolvedPostcssConfig) (o : TaggedTemplatePostcssOptions) : ProcessTagConfig :=
  { postcssConfig := resolveValue d o.postcss
    outputTransforms := o.outputTransforms.getD [standardOutputTransform] }

theorem makeTagMapGo_cons_ok (d : ResolvedPostcssConfig) (o : TaggedTemplatePostcssOptions)
    (os : List TaggedTemplatePostcssOptions) (m : TagMap) :
    makeTagMapGo (.ok d) (o :: os) m =
      match addTags (optionPtc d o) o.tags m with
      | .error e => .error e
      | .ok m2 => makeTagMapGo (.ok d) os m2 := by
  rw [makeTagMapGo, resolve_eq_ok]
  rfl

theorem makeTagMapGo_ok (d : ResolvedPostcssConfig) :
    ∀ (os : List TaggedTemplatePostcssOptions) (m : TagMap),
      ((m.map Prod.fst) ++ os.flatMap (fun o => o.tags)).Nodup →
      ∃ m', makeTagMapGo (.ok d) os m = .ok m' ∧
        m'.map Prod.fst = m.map Prod.fst ++ os.flatMap (fun o => o.tags) := by
  intro os
  induction os with
  | nil =>
    intro m _
    exact ⟨m, rfl, by simp⟩
  | cons o os ih =>
    intro m h
    rw [List.flatMap_cons, ← List.append_assoc] at h
    have hpre : ((m.map Prod.fst) ++ o.tags).Nodup := h.of_append_left
    have hm2keys : ((m ++ o.tags.map (fun t => (t, optionPtc d o))).map Prod.fst) =
        m.map Prod.fst ++ o.tags := by
      rw [List.map_append, List.map_map,
        show (Prod.fst ∘ fun t : String => (t, optionPtc d o)) = id from rfl, List.map_id]
    have h2 : (((m ++ o.tags.map (fun t => (t, optionPtc d o))).map Prod.fst) ++
        os.flatMap (fun o => o.tags)).Nodup := by
      rw [hm2keys]
      exact h
    obtain ⟨m2, hgo, hkeys⟩ := ih (m ++ o.tags.map (fun t => (t, optionPtc d o))) h2
    refine ⟨m2, ?_, ?_⟩
    · rw [makeTagMapGo_cons_ok, addTags_ok (optionPtc d o) o.tags m hpre]
      exact hgo
    · rw [hkeys, hm2keys, List.flatMap_cons, List.append_assoc]

theorem makeTagMapGo_dup (d : ResolvedPostcssConfig) :
    ∀ (os : List TaggedTemplatePostcssOptions) (m : TagMap),
      (m.map Prod.fst).Nodup →
      ¬((m.map Prod.fst) ++ os.flatMap (fun o => o.tags)).Nodup →
      ∃ t, makeTagMapGo (.ok d) os m = .error (dupTagMsg t) := by
  intro os
  induction os with
  | nil =>
    intro m hm h
    exact absurd (by simpa using hm) h
  | cons o os ih =>
    intro m hm h
    rw [List.flatMap_cons, ← List.append_assoc] at h
    by_cases hpre : ((m.map Prod.fst) ++ o.tags).Nodup
    · have hm2keys : ((m ++ o.tags.map (fun t => (t, optionPtc d o))).map Prod.fst) =
          m.map Prod.fst ++ o.tags := by
        rw [List.map_append, List.map_map,
          show (Prod.fst ∘ fun t : String => (t, optionPtc d o)) = id from rfl, List.map_id]
      have hm2 : ((m ++ o.tags.map (fun t => (t, optionPtc d o))).map Prod.fst).Nodup := by
        rw [hm2keys]
        exact hpre
      have h2 : ¬(((m ++ o.tags.map (fun t => (t, optionPtc d o))).map Prod.fst) ++
          os.flatMap (fun o => o.tags)).Nodup := by
        rw [hm2keys]
        exact h
      obtain ⟨t, ht⟩ := ih (m ++ o.tags.map (fun t => (t, optionPtc d o))) hm2 h2
      refine ⟨t, ?_⟩
      rw [makeTagMapGo_cons_ok, addTags_ok (optionPtc d o) o.tags m hpre]
      exact ht
    · obtain ⟨t, ht⟩ := addTags_dup (optionPtc d o) o.tags m hm hpre
      refine ⟨t, ?_⟩
      rw [makeTagMapGo_cons_ok, ht]

/-- Claim C3 (amended): with a reachable discovery collaborator, makeTagMap
fails with the duplicate-tag error exactly when some tag name appears more
than once across the flattened tag lists (whether within one object or
across objects); when the combined tag lists are duplicate-free it succeeds
and the resulting map's key list is exactly the concatenation of the tag
lists. -/
theorem makeTagMap_duplicate_policy (d : ResolvedPostcssConfig)
    (opts : List TaggedTemplatePostcssOptions) :
    (¬(opts.flatMap (fun o => o.tags)).Nodup →
      ∃ tag, makeTagMap (.ok d) opts = .error (dupTagMsg tag)) ∧
    ((opts.flatMap (fun o => o.tags)).Nodup →
      ∃ m, makeTagMap (.ok d) opts = .ok m ∧
        m.map Prod.fst = opts.flatMap (fun o => o.tags)) := by
  constructor
  · intro h
    exact makeTagMapGo_dup d opts [] (by simp) (by simpa using h)
  · intro h
    obtain ⟨m, hgo, hkeys⟩ := makeTagMapGo_ok d opts [] (by simpa using h)
    exact ⟨m, hgo, by simpa using hkeys⟩

/-- Claim C3, counterexample to the claim as stated: a single configuration
object whose tag list repeats a tag has pairwise disjoint tag lists (there is
no pair of distinct lists), yet resolution fails rather than succeeding. -/
theorem makeTagMap_pairwise_disjoint_cex :
    ([["a", "a"]] : List (List String)).Pairwise
        (fun t1 t2 => ∀ x ∈ t1, x ∉ t2) ∧
      makeTagMap (Except.error "no discoverable config")
          [{ tags := ["a", "a"], postcss := some { plugins := some [], options := [] },
             outputTransforms := none }] =
        .error (dupTagMsg "a") := by
  constructor
  · simp
  · rfl

theorem makeTagMap_single (d : ResolvedPostcssConfig) (o : TaggedTemplatePostcssOptions)
    (h : o.tags.Nodup) :
    makeTagMap (.ok d) [o] = .ok (o.tags.map (fun t => (t, optionPtc d o))) := by
  rw [makeTagMap, makeTagMapGo_cons_ok, addTags_ok (optionPtc d o) o.tags [] (by simpa using h)]
  rfl

/-- Claim C10: an explicitly empty outputTransforms array is kept as the
empty transform list for every tag of that object, so the processor output
becomes the replacement text verbatim; the standard escaping transform is
substituted only when the outputTransforms option is absent. -/
theorem outputTransforms_empty_not_defaulted (d : ResolvedPostcssConfig)
    (pc : Option PostcssConfigJs) (tags : List String) (css : List Char) :
    (∀ m, makeTagMap (.ok d)
        [{ tags := tags, postcss := pc, outputTransforms := some [] }] = .ok m →
      ∀ kv ∈ m, kv.2.outputTransforms = [] ∧ pipeNow css kv.2.outputTransforms = css) ∧
    (∀ m, makeTagMap (.ok d)
        [{ tags := tags, postcss := pc, outputTransforms := none }] = .ok m →
      ∀ kv ∈ m, kv.2.outputTransforms = [standardOutputTransform]) := by
  constructor
  · intro m hm kv hkv
    by_cases h : tags.Nodup
    · rw [makeTagMap_single d _ h] at hm
      injection hm with hm
      subst hm
      simp only [List.mem_map] at hkv
      obtain ⟨t, _, hkv⟩ := hkv
      subst hkv
      exact ⟨rfl, rfl⟩
    · obtain ⟨tag, htag⟩ := makeTagMapGo_dup d
        [{ tags := tags, postcss := pc, outputTransforms := some [] }] [] (by simp)
        (by simpa using h)
      rw [makeTagMap] at hm
      rw [htag] at hm
      exact absurd hm (by simp)
  · intro m hm kv hkv
    by_cases h : tags.Nodup
    · rw [makeTagMap_single d _ h] at hm
      injection hm with hm
      subst hm
      simp only [List.mem_map] at hkv
      obtain ⟨t, _, hkv⟩ := hkv
      subst hkv
      exact rfl
    · obtain ⟨tag, htag⟩ := makeTagMapGo_dup d
        [{ tags := tags, postcss := pc, outputTransforms := none }] [] (by simp)
        (by simpa using h)
      rw [makeTagMap] at hm
      rw [htag] at hm
      exact absurd hm (by simp)

/-! ## Processor option building (Object.assign with from and to) -/

/-- Embeds Object.assign(target, src) as far as key lookup goes: the source
object's entries win over the target's. -/
def objAssign (target src : List (String × JsVal)) : List (String × JsVal) :=
  target.filter (fun kv => !src.any (fun kv2 => kv2.1 == kv.1)) ++ src

/-- Property lookup on an embedded JavaScript object. -/
def lookupKey (obj : List (String × JsVal)) (k : String) : Option JsVal :=
  (obj.find? (fun kv => kv.1 == k)).map Prod.snd

/-- Embeds the option object built per target by the transform loops of
src/index.js and src/targets.js: Object.assign of the base from/to object
with the resolved user options. -/
def buildPostcssOptions (moduleId : String) (cfg : ResolvedPostcssConfig) :
    List (String × JsVal) :=
  objAssign [("from", JsVal.str moduleId), ("to", JsVal.str moduleId)] cfg.options

theorem pick_keys_sub (obj : List (String × JsVal)) (keys : List String) :
    ∀ k ∈ (pick obj keys).map Prod.fst, k ∈ keys := by
  intro k hk
  simp only [pick, List.mem_map, List.mem_filter] at hk
  obtain ⟨kv, ⟨_, hmem⟩, hfst⟩ := hk
  subst hfst
  simpa using hmem

theorem resolveValue_keys_sub (d : ResolvedPostcssConfig) (pc : Option PostcssConfigJs) :
    ∀ k ∈ (resolveValue d pc).options.map Prod.fst, k ∈ acceptedOptions := by
  cases pc with
  | none => exact pick_keys_sub _ _
  | some cfg => exact pick_keys_sub _ _

theorem resolveOptions_no_key (d : ResolvedPostcssConfig) (pc : Option PostcssConfigJs)
    (k : String) (hk : k ∉ acceptedOptions) :
    ((resolveValue d pc).options.any fun kv2 => kv2.1 == k) = false := by
  rw [List.any_eq_false]
  intro kv hkv
  simp only [beq_iff_eq]
  intro hfk
  exact hk (hfk ▸ resolveValue_keys_sub d pc kv.1 (List.mem_map_of_mem Prod.fst hkv))

theorem buildPostcssOptions_eq (moduleId : String) (r : ResolvedPostcssConfig)
    (hF : (r.options.any fun kv2 => kv2.1 == "from") = false)
    (hT : (r.options.any fun kv2 => kv2.1 == "to") = false) :
    buildPostcssOptions moduleId r =
      ("from", JsVal.str moduleId) :: ("to", JsVal.str moduleId) :: r.options := by
  simp [buildPostcssOptions, objAssign, List.filter, hF, hT]

/-- Claim C9: for every region the options handed to the external processor
have from and to equal to the module id (never taken from user input), carry
from the user configuration at most the keys parser, stringifier and syntax,
and use the user plugin list with the empty list as default (or the
discovered plugin list when no inline config is given). -/
theorem postcssOptions_restricted (moduleId : String) (d : ResolvedPostcssConfig)
    (pc : Option PostcssConfigJs) :
    ∃ r, resolvePostcssConfig (.ok d) pc = .ok r ∧
      lookupKey (buildPostcssOptions moduleId r) "from" = some (JsVal.str moduleId) ∧
      lookupKey (buildPostcssOptions moduleId r) "to" = some (JsVal.str moduleId) ∧
      (∀ k ∈ r.options.map Prod.fst, k ∈ acceptedOptions) ∧
      (∀ k ∈ (buildPostcssOptions moduleId r).map Prod.fst,
        k ∈ "from" :: "to" :: acceptedOptions) ∧
      r.plugins = (match pc with
        | some cfg => cfg.plugins.getD []
        | none => d.plugins) := by
  have hF := resolveOptions_no_key d pc "from" (by decide)
  have hT := resolveOptions_no_key d pc "to" (by decide)
  have hbuild := buildPostcssOptions_eq moduleId (resolveValue d pc) hF hT
  refine ⟨resolveValue d pc, resolve_eq_ok d pc, ?_, ?_, resolveValue_keys_sub d pc, ?_, ?_⟩
  · rw [hbuild]
    rfl
  · rw [hbuild]
    rfl
  · intro k hk
    rw [hbuild] at hk
    simp only [List.map_cons, List.mem_cons] at hk
    rcases hk with h | h | h
    · exact h ▸ List.mem_cons_self _ _
    · exact h ▸ List.mem_cons_of_mem _ (List.mem_cons_self _ _)
    · exact List.mem_cons_of_mem _ (List.mem_cons_of_mem _
        (resolveValue_keys_sub d pc k h))
  · cases pc <;> rfl

/-! ## Content transform runner (makeTransformRanges of src/targets.js,
also the per-target loop of src/index.js transform) -/

/-- A PostCSS result message, as the dependency loop of src/targets.js reads
it: its type string, and its file and dir properties. -/
structure PostcssMessage where
  type : String
  file : String
  dir : String

/-- What the external processor returns per region: the output text and the
messages reported by the plugins. -/
structure PostcssResult where
  css : List Char
  messages : List PostcssMessage

/-- A template literal targeted for transformation (TransformTarget of
src/index.js / src/targets.js). The source's end field is a reserved word
here, so it is named endIdx. -/
structure TransformTarget where
  start : Nat
  endIdx : Nat
  literalContents : List Char
  processTagConfig : ProcessTagConfig

/-- One replacement range pushed into the Ranges object: start offset, end
offset, and the replacement text. -/
structure ReplacementRange where
  start : Nat
  endIdx : Nat
  replacementText : List Char
deriving DecidableEq

/-- What makeTransformRanges of src/targets.js resolves to: the pushed
ranges and the dependency array built from the dependency set. -/
structure TransformRangesResult where
  transformRanges : List ReplacementRange
  dependencies : List String

/-- Embeds Set.add followed by Array.from: insertion-ordered, skipping
values already present. -/
def setAdd (s : List String) (x : String) : List String :=
  if x ∈ s then s else s ++ [x]

/-- The dependency path a PostCSS message contributes, exactly as the
message loop of src/targets.js reads it: the file property for dependency
and context-dependency messages, the dir property for dir-dependency
messages, nothing otherwise. -/
def depMessagePath (m : PostcssMessage) : Option String :=
  if m.type = "dependency" ∨ m.type = "context-dependency" then some m.file
  else if m.type = "dir-dependency" then some m.dir
  else none

/-- The inner message loop of makeTransformRanges: fold the reported
dependency paths into the dependency set. -/
def addMessageDeps (deps : List String) (msgs : List PostcssMessage) : List String :=
  msgs.foldl
    (fun acc m =>
      match depMessagePath m with
      | some p => setAdd acc p
      | none => acc)
    deps

/-- The external processor collaborator: plugins, content and options in,
either a result or a failure out. -/
def PostcssProcessor : Type :=
  List Nat → List Char → List (String × JsVal) → Except String PostcssResult

/-- The processor call makeTransformRanges makes for one target. -/
def procCall (proc : PostcssProcessor) (moduleId : String) (t : TransformTarget) :
    Except String PostcssResult :=
  proc t.processTagConfig.postcssConfig.plugins t.literalContents
    (buildPostcssOptions moduleId t.processTagConfig.postcssConfig)

/-- The loop of makeTransformRanges over the targets, with the ranges and
dependency set accumulated so far. A processor failure aborts the loop. -/
def makeTransformRangesGo (proc : PostcssProcessor) (moduleId : String) :
    List TransformTarget → List ReplacementRange → List String →
      Except String TransformRangesResult
  | [], ranges, deps => .ok { transformRanges := ranges, dependencies := deps }
  | t :: rest, ranges, deps =>
    match procCall proc moduleId t with
    | .error e => .error e
    | .ok postcssResult =>
      makeTransformRangesGo proc moduleId rest
        (ranges ++
          [⟨t.start, t.endIdx, pipeNow postcssResult.css t.processTagConfig.outputTransforms⟩])
        (addMessageDeps deps postcssResult.messages)

/-- Embeds makeTransformRanges of src/targets.js (the same awaited
per-target loop appears inline in the transform hook of src/index.js, there
without the dependency collection). -/
def makeTransformRanges (proc : PostcssProcessor) (moduleId : String)
    (transformTargets : List TransformTarget) : Except String TransformRangesResult :=
  makeTransformRangesGo proc moduleId transformTargets [] []

theorem makeTransformRangesGo_error (proc : PostcssProcessor) (moduleId : String) :
    ∀ (pre : List TransformTarget) (t : TransformTarget) (post : List TransformTarget)
      (e : String) (ranges : List ReplacementRange) (deps : List String),
      (∀ t2 ∈ pre, (procCall proc moduleId t2).isOk = true) →
      procCall proc moduleId t = .error e →
      makeTransformRangesGo proc moduleId (pre ++ t :: post) ranges deps = .error e := by
  intro pre
  induction pre with
  | nil =>
    intro t post e ranges deps _ ht
    rw [List.nil_append, makeTransformRangesGo, ht]
  | cons p pre ih =>
    intro t post e ranges deps hpre ht
    have hp : (procCall proc moduleId p).isOk = true :=
      hpre p (List.mem_cons_self _ _)
    rw [List.cons_append, makeTransformRangesGo]
    cases hcall : procCall proc moduleId p with
    | error e2 =>
      rw [hcall] at hp
      exact absurd hp (by simp [Except.isOk, Except.toBool])
    | ok res =>
      exact ih t post e _ _ (fun t2 hmem => hpre t2 (List.mem_cons_of_mem _ hmem)) ht

theorem makeTransformRangesGo_ok_all (proc : PostcssProcessor) (moduleId : String) :
    ∀ (targets : List TransformTarget) (ranges : List ReplacementRange)
      (deps : List String) (out : TransformRangesResult),
      makeTransformRangesGo proc moduleId targets ranges deps = .ok out →
      ∀ t ∈ targets, (procCall proc moduleId t).isOk = true := by
  intro targets
  induction targets with
  | nil =>
    intro ranges deps out _ t hmem
    exact absurd hmem (List.not_mem_nil t)
  | cons p rest ih =>
    intro ranges deps out hout t hmem
    rw [makeTransformRangesGo] at hout
    cases hcall : procCall proc moduleId p with
    | error e =>
      rw [hcall] at hout
      exact absurd hout (by simp)
    | ok res =>
      rw [hcall] at hout
      rcases List.mem_cons.mp hmem with h | h
      · subst h
        rw [hcall]
        rfl
      · exact ih _ _ out hout t h

/-- Claim C6: a processor failure on any region fails the whole invocation
with that error, regions before it having succeeded; and a successful
invocation means every region's processor call succeeded, so no partial
output is ever produced. -/
theorem makeTransformRanges_all_or_nothing (proc : PostcssProcessor) (moduleId : String) :
    (∀ (pre : List TransformTarget) (t : TransformTarget) (post : List TransformTarget)
      (e : String),
      (∀ t2 ∈ pre, (procCall proc moduleId t2).isOk = true) →
      procCall proc moduleId t = .error e →
      makeTransformRanges proc moduleId (pre ++ t :: post) = .error e) ∧
    (∀ (targets : List TransformTarget) (out : TransformRangesResult),
      makeTransformRanges proc moduleId targets = .ok out →
      ∀ t ∈ targets, (procCall proc moduleId t).isOk = true) := by
  constructor
  · intro pre t post e hpre ht
    exact makeTransformRangesGo_error proc moduleId pre t post e [] [] hpre ht
  · intro targets out hout
    exact makeTransformRangesGo_ok_all proc moduleId targets [] [] out hout

theorem setAdd_mem_of_mem (s : List String) (y x : String) (h : x ∈ s) : x ∈ setAdd s y := by
  by_cases hy : y ∈ s
  · rwa [setAdd, if_pos hy]
  · rw [setAdd, if_neg hy]
    exact List.mem_append_left _ h

theorem setAdd_mem_self (s : List String) (x : String) : x ∈ setAdd s x := by
  by_cases hx : x ∈ s
  · rwa [setAdd, if_pos hx]
  · rw [setAdd, if_neg hx]
    exact List.mem_append_right _ (List.mem_singleton.mpr rfl)

theorem setAdd_nodup (s : List String) (x : String) (h : s.Nodup) : (setAdd s x).Nodup := by
  by_cases hx : x ∈ s
  · rwa [setAdd, if_pos hx]
  · rw [setAdd, if_neg hx]
    rw [List.nodup_append]
    refine ⟨h, List.nodup_singleton x, ?_⟩
    intro a ha hb
    rw [List.mem_singleton] at hb
    subst hb
    exact hx ha

theorem addMessageDeps_mono (msgs : List PostcssMessage) :
    ∀ (deps : List String) (x : String), x ∈ deps → x ∈ addMessageDeps deps msgs := by
  induction msgs with
  | nil =>
    intro deps x h
    exact h
  | cons m rest ih =>
    intro deps x h
    rw [addMessageDeps, List.foldl_cons]
    cases hp : depMessagePath m with
    | none => exact ih deps x h
    | some p => exact ih (setAdd deps p) x (setAdd_mem_of_mem deps p x h)

theorem addMessageDeps_nodup (msgs : List PostcssMessage) :
    ∀ (deps : List String), deps.Nodup → (addMessageDeps deps msgs).Nodup := by
  induction msgs with
  | nil =>
    intro deps h
    exact h
  | cons m rest ih =>
    intro deps h
    rw [addMessageDeps, List.foldl_cons]
    cases hp : depMessagePath m with
    | none => exact ih deps h
    | some p => exact ih (setAdd deps p) (setAdd_nodup deps p h)

theorem addMessageDeps_mem (msgs : List PostcssMessage) :
    ∀ (deps : List String) (m : PostcssMessage) (p : String), m ∈ msgs →
      depMessagePath m = some p → p ∈ addMessageDeps deps msgs := by
  induction msgs with
  | nil =>
    intro deps m p hmem _
    exact absurd hmem (List.not_mem_nil m)
  | cons m0 rest ih =>
    intro deps m p hmem hp
    rw [addMessageDeps, List.foldl_cons]
    rcases List.mem_cons.mp hmem with h | h
    · subst h
      rw [hp]
      exact addMessageDeps_mono rest (setAdd deps p) p (setAdd_mem_self deps p)
    · cases hp0 : depMessagePath m0 with
      | none => exact ih deps m p h hp
      | some p0 => exact ih (setAdd deps p0) m p h hp

theorem makeTransformRangesGo_deps (proc : PostcssProcessor) (moduleId : String) :
    ∀ (targets : List TransformTarget) (ranges : List ReplacementRange)
      (deps : List String) (out : TransformRangesResult),
      makeTransformRangesGo proc moduleId targets ranges deps = .ok out →
      (deps.Nodup → out.dependencies.Nodup) ∧
      (∀ x ∈ deps, x ∈ out.dependencies) ∧
      (∀ t ∈ targets, ∀ res, procCall proc moduleId t = .ok res →
        ∀ m ∈ res.messages, ∀ p, depMessagePath m = some p → p ∈ out.dependencies) := by
  intro targets
  induction targets with
  | nil =>
    intro ranges deps out hout
    rw [makeTransformRangesGo] at hout
    injection hout with hout
    subst hout
    exact ⟨fun h => h, fun x h => h, fun t hmem => absurd hmem (List.not_mem_nil t)⟩
  | cons t0 rest ih =>
    intro ranges deps out hout
    rw [makeTransformRangesGo] at hout
    cases hcall : procCall proc moduleId t0 with
    | error e =>
      rw [hcall] at hout
      exact absurd hout (by simp)
    | ok res0 =>
      rw [hcall] at hout
      obtain ⟨hnd, hmono, hrest⟩ := ih _ _ out hout
      refine ⟨?_, ?_, ?_⟩
      · intro h
        exact hnd (addMessageDeps_nodup res0.messages deps h)
      · intro x h
        exact hmono x (addMessageDeps_mono res0.messages deps x h)
      · intro t hmem res hres m hm p hp
        rcases List.mem_cons.mp hmem with h | h
        · subst h
          rw [hcall] at hres
          injection hres with hres
          subst hres
          exact hmono p (addMessageDeps_mem _ deps m p hm hp)
        · exact hrest t h res hres m hm p hp

/-- Claim C1, the accumulation half that the source does implement
(makeTransformRanges of src/targets.js): a successful run returns, next to
the replacement ranges, a duplicate-free dependency list holding every
dependency path any region's processor reported. The invocation-level half
of the claim fails in the source: src/index.js ignores the messages and
src/plugin.js drops the dependencies (its last pipeline stage calls a
Ranges method on the combined result object). -/
theorem makeTransformRanges_collects_deps (proc : PostcssProcessor) (moduleId : String)
    (targets : List TransformTarget) (out : TransformRangesResult)
    (hout : makeTransformRanges proc moduleId targets = .ok out) :
    out.dependencies.Nodup ∧
      ∀ t ∈ targets, ∀ res, procCall proc moduleId t = .ok res →
        ∀ m ∈ res.messages, ∀ p, depMessagePath m = some p → p ∈ out.dependencies := by
  obtain ⟨hnd, _, hall⟩ := makeTransformRangesGo_deps proc moduleId targets [] [] out hout
  exact ⟨hnd List.nodup_nil, hall⟩

/-- A concrete processor for the witness: one output text, three dependency
messages with one duplicated path. -/
def witnessProc : PostcssProcessor :=
  fun _ _ _ =>
    .ok { css := ['x'],
          messages := [{ type := "dependency", file := "a.css", dir := "" },
                       { type := "dependency", file := "a.css", dir := "" },
                       { type := "dir-dependency", file := "", dir := "dir1" }] }

/-- A concrete target for the witness. -/
def witnessTarget : TransformTarget :=
  { start := 1, endIdx := 2, literalContents := ['y'],
    processTagConfig := { postcssConfig := { plugins := [], options := [] },
                          outputTransforms := [] } }

theorem makeTransformRanges_collects_deps_witness :
    (["a.css", "dir1"] : List String).Nodup ∧
      ∀ t ∈ [witnessTarget], ∀ res, procCall witnessProc "mod.js" t = .ok res →
        ∀ m ∈ res.messages, ∀ p, depMessagePath m = some p →
          p ∈ (["a.css", "dir1"] : List String) :=
  makeTransformRanges_collects_deps witnessProc "mod.js" [witnessTarget]
    { transformRanges := [⟨1, 2, ['x']⟩], dependencies := ["a.css", "dir1"] } rfl

/-! ## Range splicer

The source delegates splicing to the external ranges-push and ranges-apply
packages (their code is not part of this repository), so the splicer below is
modelled from the spec. -/

/-- Modelled from the spec: two replacement ranges overlap when their
half-open spans intersect. -/
def rangesOverlap (a b : ReplacementRange) : Bool :=
  decide (max a.start b.start < min a.endIdx b.endIdx)

/-- Modelled from the spec: the splicer's conflict check. Ranges conflict
when they overlap, and also when they begin at the same offset: the spec's
invariant requires the ranges to be sortable by start, which two ranges
sharing a start offset defeat. -/
def rangesConflict (a b : ReplacementRange) : Bool :=
  rangesOverlap a b || (a.start == b.start)

/-- Whether some pair of ranges in the collection conflicts. -/
def hasConflict : List ReplacementRange → Bool
  | [] => false
  | r :: rest => rest.any (rangesConflict r) || hasConflict rest

/-- Ordering of replacement ranges by start offset. -/
def rangeStartLe (a b : ReplacementRange) : Prop := a.start ≤ b.start

instance : DecidableRel rangeStartLe :=
  fun a b => inferInstanceAs (Decidable (a.start ≤ b.start))

instance : IsTotal ReplacementRange rangeStartLe :=
  ⟨fun a b => Nat.le_total a.start b.start⟩

instance : IsTrans ReplacementRange rangeStartLe :=
  ⟨fun _ _ _ h1 h2 => Nat.le_trans h1 h2⟩

/-- Strict ordering of replacement ranges by start offset. -/
def rangeStartLt (a b : ReplacementRange) : Prop := a.start < b.start

instance : IsAntisymm ReplacementRange rangeStartLt :=
  ⟨fun _ _ h1 h2 => absurd h2 (Nat.lt_asymm h1)⟩

/-- Modelled from the spec: final application sorted by start offset. -/
def sortRanges (ranges : List ReplacementRange) : List ReplacementRange :=
  List.insertionSort rangeStartLe ranges

/-- Modelled from the spec: emit the original text up to each range's start,
then its replacement text, resuming after the range's end; after the last
range, the rest of the original text. -/
def spliceSorted (text : List Char) : Nat → List ReplacementRange → List Char
  | pos, [] => text.drop pos
  | pos, r :: rest =>
    ((text.take r.start).drop pos) ++ r.replacementText ++ spliceSorted text r.endIdx rest

/-- The fatal error of the splicer's overlap check. -/
def overlapErrorMsg : String := "overlapping replacement ranges"

/-- Modelled from the spec: the range splicer (section 4.5). The source
performs this step with the external ranges-push and ranges-apply packages:
fail fatally when any two ranges conflict, otherwise splice the ranges into
the original text in ascending start order. -/
def applyReplacementRanges (text : List Char) (ranges : List ReplacementRange) :
    Except String (List Char) :=
  if hasConflict ranges then .error overlapErrorMsg
  else .ok (spliceSorted text 0 (sortRanges ranges))

theorem hasConflict_suffix (l : List ReplacementRange) (h : hasConflict l = true) :
    ∀ pre : List ReplacementRange, hasConflict (pre ++ l) = true := by
  intro pre
  induction pre with
  | nil => exact h
  | cons p pre ih => simp [hasConflict, ih]

theorem hasConflict_head (a b : ReplacementRange) (rest : List ReplacementRange)
    (hconf : rangesConflict a b = true) (hmem : b ∈ rest) :
    hasConflict (a :: rest) = true := by
  simp only [hasConflict, Bool.or_eq_true, List.any_eq_true]
  exact Or.inl ⟨b, hmem, hconf⟩

/-- Claim C2: whenever two of the supplied ranges overlap, the splicer fails
fatally with the overlap error instead of producing an output text. -/
theorem applyReplacementRanges_overlap_fatal (text : List Char)
    (pre mid post : List ReplacementRange) (a b : ReplacementRange)
    (hab : rangesOverlap a b = true) :
    applyReplacementRanges text (pre ++ (a :: (mid ++ (b :: post)))) = .error overlapErrorMsg := by
  have hconf : rangesConflict a b = true := by
    rw [rangesConflict, hab, Bool.true_or]
  have hc : hasConflict (pre ++ (a :: (mid ++ (b :: post)))) = true :=
    hasConflict_suffix _
      (hasConflict_head a b _ hconf (List.mem_append_right mid (List.mem_cons_self b post)))
      pre
  rw [applyReplacementRanges, if_pos hc]

theorem applyReplacementRanges_overlap_fatal_witness :
    applyReplacementRanges ['v', 'w', 'x', 'y', 'z']
        ([] ++ ((⟨0, 2, []⟩ : ReplacementRange) :: ([] ++ ((⟨1, 3, []⟩ : ReplacementRange) :: [])))) =
      .error overlapErrorMsg :=
  applyReplacementRanges_overlap_fatal ['v', 'w', 'x', 'y', 'z'] [] [] [] ⟨0, 2, []⟩ ⟨1, 3, []⟩
    (by decide)

theorem hasConflict_eq_false_iff (l : List ReplacementRange) :
    hasConflict l = false ↔ l.Pairwise (fun a b => rangesConflict a b = false) := by
  induction l with
  | nil => simp [hasConflict]
  | cons r rest ih =>
    simp [hasConflict, List.any_eq_false, List.pairwise_cons, ih, and_comm]

theorem rangesConflict_symm (a b : ReplacementRange) :
    rangesConflict a b = rangesConflict b a := by
  simp only [rangesConflict, rangesOverlap]
  rw [Nat.max_comm, Nat.min_comm]
  congr 1
  simp [BEq.comm]

theorem hasConflict_of_perm (l1 l2 : List ReplacementRange) (h : l1.Perm l2) :
    hasConflict l1 = hasConflict l2 := by
  have hiff : l1.Pairwise (fun a b => rangesConflict a b = false) ↔
      l2.Pairwise (fun a b => rangesConflict a b = false) :=
    h.pairwise_iff (fun hc => by rw [rangesConflict_symm]; exact hc)
  by_cases h1 : hasConflict l1 = false
  · rw [h1, ((hasConflict_eq_false_iff l2).mpr (hiff.mp ((hasConflict_eq_false_iff l1).mp h1))).symm]
  · have h2 : ¬hasConflict l2 = false := fun hf =>
      h1 ((hasConflict_eq_false_iff l1).mpr (hiff.mpr ((hasConflict_eq_false_iff l2).mp hf)))
    rw [Bool.not_eq_false] at h1 h2
    rw [h1, h2]

theorem pairwise_ne_start (l : List ReplacementRange) (h : hasConflict l = false) :
    l.Pairwise (fun a b => a.start ≠ b.start) := by
  refine ((hasConflict_eq_false_iff l).mp h).imp ?_
  intro a b hc
  simp only [rangesConflict, Bool.or_eq_false_iff] at hc
  exact fun heq => by simp [heq] at hc

theorem sortRanges_eq_of_perm (l1 l2 : List ReplacementRange) (hperm : l1.Perm l2)
    (h : hasConflict l2 = false) : sortRanges l1 = sortRanges l2 := by
  have hp : (sortRanges l1).Perm (sortRanges l2) :=
    ((List.perm_insertionSort rangeStartLe l1).trans hperm).trans
      (List.perm_insertionSort rangeStartLe l2).symm
  have hs1 : List.Sorted rangeStartLe (sortRanges l1) :=
    List.sorted_insertionSort rangeStartLe l1
  have hs2 : List.Sorted rangeStartLe (sortRanges l2) :=
    List.sorted_insertionSort rangeStartLe l2
  have hsym : ∀ {x y : ReplacementRange}, x.start ≠ y.start → y.start ≠ x.start :=
    fun hxy => fun heq => hxy heq.symm
  have hne2 : (sortRanges l2).Pairwise (fun a b => a.start ≠ b.start) :=
    ((List.perm_insertionSort rangeStartLe l2).pairwise_iff hsym).mpr (pairwise_ne_start l2 h)
  have hne1 : (sortRanges l1).Pairwise (fun a b => a.start ≠ b.start) :=
    (hp.pairwise_iff hsym).mpr hne2
  have hlt1 : List.Sorted rangeStartLt (sortRanges l1) :=
    (hs1.and hne1).imp (fun hab => Nat.lt_of_le_of_ne hab.1 hab.2)
  have hlt2 : List.Sorted rangeStartLt (sortRanges l2) :=
    (hs2.and hne2).imp (fun hab => Nat.lt_of_le_of_ne hab.1 hab.2)
  exact List.eq_of_perm_of_sorted hp hlt1 hlt2

/-- Claim C8: splicing no ranges returns the original text; splicing one
range replacing the span from s to e with R yields the text before s, then
R, then the text from e on; and any collection passing the conflict check is
spliced in ascending start order, with the same result for every order the
ranges are supplied in. -/
theorem applyReplacementRanges_spec :
    (∀ text : List Char, applyReplacementRanges text [] = .ok text) ∧
    (∀ (text R : List Char) (s e : Nat),
      applyReplacementRanges text [⟨s, e, R⟩] =
        .ok (text.take s ++ R ++ text.drop e)) ∧
    (∀ (text : List Char) (ranges ranges2 : List ReplacementRange),
      ranges2.Perm ranges → hasConflict ranges = false →
      applyReplacementRanges text ranges2 =
          .ok (spliceSorted text 0 (sortRanges ranges)) ∧
        applyReplacementRanges text ranges2 = applyReplacementRanges text ranges) := by
  refine ⟨?_, ?_, ?_⟩
  · intro text
    simp [applyReplacementRanges, hasConflict, sortRanges, spliceSorted]
  · intro text R s e
    simp [applyReplacementRanges, hasConflict, sortRanges, spliceSorted,
      List.insertionSort, List.orderedInsert]
  · intro text ranges ranges2 hperm h
    have h2 : hasConflict ranges2 = false := (hasConflict_of_perm ranges2 ranges hperm).trans h
    have hsort : sortRanges ranges2 = sortRanges ranges :=
      sortRanges_eq_of_perm ranges2 ranges hperm h
    constructor
    · rw [applyReplacementRanges, if_neg (by rw [h2]; exact Bool.false_ne_true), hsort]
    · rw [applyReplacementRanges, applyReplacementRanges,
        if_neg (by rw [h2]; exact Bool.false_ne_true),
        if_neg (by rw [h]; exact Bool.false_ne_true), hsort]

/-! ## Region locator (the AST walk of src/index.js and src/targets.js) -/

/-- The slice of an ESTree syntax tree the walk reads: tagged template
expressions carry their tag identifier and the quasi node's start and end
offsets (delimiters included); the expressions inside a template literal's
placeholders are its children. Every other node kind only contributes its
span and its children. -/
inductive AstNode where
  | taggedTemplateExpr (tagName : String) (quasiStart quasiEnd : Nat) (children : List AstNode)
  | otherNode (start endIdx : Nat) (children : List AstNode)

/-- The span of a node: for a tagged template expression the quasi span. -/
def nodeSpan : AstNode → Nat × Nat
  | .taggedTemplateExpr _ qs qe _ => (qs, qe)
  | .otherNode s e _ => (s, e)

/-- Embeds Map.get guarded by Map.has. -/
def tagMapGet (m : TagMap) (tag : String) : ProcessTagConfig :=
  ((m.find? (fun kv => kv.1 == tag)).map Prod.snd).getD
    { postcssConfig := { plugins := [], options := [] }, outputTransforms := [] }

/-- Embeds JavaScript String.prototype.substring: clamped to the text and
with the smaller index first. -/
def jsSubstring (code : List Char) (a b : Nat) : List Char :=
  (code.take (max a b)).drop (min a b)

mutual

/-- The simple acorn walk of src/index.js / src/targets.js restricted to what
its visitor observes: children are visited before the callback runs on the
node, and a tagged template expression whose tag is in the map pushes a
target whose range drops one delimiter character at each end of the quasi. -/
def findTargetsNode (code : List Char) (tagMap : TagMap) : AstNode → List TransformTarget
  | .taggedTemplateExpr tagName quasiStart quasiEnd children =>
    findTargetsList code tagMap children ++
      (if tagMapHas tagMap tagName then
        [{ start := quasiStart + 1, endIdx := quasiEnd - 1,
           literalContents := jsSubstring code (quasiStart + 1) (quasiEnd - 1),
           processTagConfig := tagMapGet tagMap tagName }]
      else [])
  | .otherNode _ _ children => findTargetsList code tagMap children

/-- The walk over a list of sibling nodes. -/
def findTargetsList (code : List Char) (tagMap : TagMap) : List AstNode → List TransformTarget
  | [] => []
  | n :: rest => findTargetsNode code tagMap n ++ findTargetsList code tagMap rest

end

/-- Embeds findTransformTargets of src/targets.js (the same walk appears
inline in the transform hook of src/index.js). -/
def findTransformTargets (code : List Char) (tagMap : TagMap) (ast : AstNode) :
    List TransformTarget :=
  findTargetsNode code tagMap ast

mutual

/-- The matched tagged template expressions in walk order: tag name and
quasi offsets. -/
def collectMatchedNode (tagMap : TagMap) : AstNode → List (String × Nat × Nat)
  | .taggedTemplateExpr tagName qs qe children =>
    collectMatchedList tagMap children ++
      (if tagMapHas tagMap tagName then [(tagName, qs, qe)] else [])
  | .otherNode _ _ children => collectMatchedList tagMap children

def collectMatchedList (tagMap : TagMap) : List AstNode → List (String × Nat × Nat)
  | [] => []
  | n :: rest => collectMatchedNode tagMap n ++ collectMatchedList tagMap rest

end

/-- The target a matched tagged template expression contributes: one
delimiter character excluded at each end of the quasi. -/
def mkRegionTarget (code : List Char) (tagMap : TagMap) (x : String × Nat × Nat) :
    TransformTarget :=
  { start := x.2.1 + 1, endIdx := x.2.2 - 1,
    literalContents := jsSubstring code (x.2.1 + 1) (x.2.2 - 1),
    processTagConfig := tagMapGet tagMap x.1 }

/-- Sibling spans are contained in the enclosing span. -/
def childrenWithin (lo hi : Nat) : List AstNode → Bool
  | [] => true
  | c :: rest =>
    (decide (lo ≤ (nodeSpan c).1) && decide ((nodeSpan c).2 ≤ hi)) && childrenWithin lo hi rest

/-- Siblings come in source order with disjoint spans. -/
def siblingsSeparated : List AstNode → Bool
  | [] => true
  | c :: rest =>
    rest.all (fun c2 => decide ((nodeSpan c).2 ≤ (nodeSpan c2).1)) && siblingsSeparated rest

mutual

/-- Well-formedness of a parsed tree over a text of the given length: spans
are ordered and inside the text, a quasi has room for its two delimiters,
and children sit inside their parent (inside the quasi body for a tagged
template expression) in source order with disjoint spans. -/
def wfNode (len : Nat) : AstNode → Bool
  | .taggedTemplateExpr _ qs qe children =>
    decide (qs + 2 ≤ qe) && decide (qe ≤ len) && childrenWithin (qs + 1) (qe - 1) children &&
      siblingsSeparated children && wfList len children
  | .otherNode s e children =>
    decide (s ≤ e) && decide (e ≤ len) && childrenWithin s e children &&
      siblingsSeparated children && wfList len children

def wfList (len : Nat) : List AstNode → Bool
  | [] => true
  | n :: rest => wfNode len n && wfList len rest

end

mutual

/-- Whether the subtree holds any tagged template expression. -/
def hasTTNode : AstNode → Bool
  | .taggedTemplateExpr _ _ _ _ => true
  | .otherNode _ _ children => hasTTList children

def hasTTList : List AstNode → Bool
  | [] => false
  | n :: rest => hasTTNode n || hasTTList rest

end

mutual

/-- No tagged template expression of the tree is nested inside another one. -/
def noNestedTTNode : AstNode → Bool
  | .taggedTemplateExpr _ _ _ children => !hasTTList children
  | .otherNode _ _ children => noNestedTTList children

def noNestedTTList : List AstNode → Bool
  | [] => true
  | n :: rest => noNestedTTNode n && noNestedTTList rest

end

/-- Overlap of two targeted ranges. -/
def targetsOverlapB (a b : TransformTarget) : Bool :=
  decide (max a.start b.start < min a.endIdx b.endIdx)

theorem childrenWithin_iff (lo hi : Nat) (cs : List AstNode) :
    childrenWithin lo hi cs = true ↔
      ∀ c ∈ cs, lo ≤ (nodeSpan c).1 ∧ (nodeSpan c).2 ≤ hi := by
  induction cs with
  | nil => simp [childrenWithin]
  | cons c rest ih => simp [childrenWithin, ih]

theorem siblingsSeparated_iff (cs : List AstNode) :
    siblingsSeparated cs = true ↔
      cs.Pairwise (fun a b => (nodeSpan a).2 ≤ (nodeSpan b).1) := by
  induction cs with
  | nil => simp [siblingsSeparated]
  | cons c rest ih => simp [siblingsSeparated, List.pairwise_cons, ih, List.all_eq_true]

theorem wfList_iff (len : Nat) (cs : List AstNode) :
    wfList len cs = true ↔ ∀ c ∈ cs, wfNode len c = true := by
  induction cs with
  | nil => simp [wfList]
  | cons c rest ih => simp [wfList, ih]

theorem noNestedTTList_iff (cs : List AstNode) :
    noNestedTTList cs = true ↔ ∀ c ∈ cs, noNestedTTNode c = true := by
  induction cs with
  | nil => simp [noNestedTTList]
  | cons c rest ih => simp [noNestedTTList, ih]

theorem wf_span_le (len : Nat) (n : AstNode) (h : wfNode len n = true) :
    (nodeSpan n).1 ≤ (nodeSpan n).2 := by
  cases n with
  | taggedTemplateExpr t qs qe cs =>
    simp only [wfNode, Bool.and_eq_true, decide_eq_true_eq] at h
    simp only [nodeSpan]
    omega
  | otherNode s e cs =>
    simp only [wfNode, Bool.and_eq_true, decide_eq_true_eq] at h
    simp only [nodeSpan]
    omega

theorem noTT_targets (code : List Char) (tagMap : TagMap) : ∀ (k : Nat),
    (∀ n : AstNode, sizeOf n ≤ k → hasTTNode n = false →
      findTargetsNode code tagMap n = []) ∧
    (∀ cs : List AstNode, sizeOf cs ≤ k → hasTTList cs = false →
      findTargetsList code tagMap cs = []) := by
  intro k
  induction k with
  | zero =>
    constructor
    · intro n hn
      exact absurd hn (by cases n <;> simp)
    · intro cs hcs
      exact absurd hcs (by cases cs <;> simp)
  | succ k ih =>
    constructor
    · intro n hn hTT
      cases n with
      | taggedTemplateExpr t qs qe cs => simp [hasTTNode] at hTT
      | otherNode s e cs =>
        rw [findTargetsNode]
        refine ih.2 cs ?_ (by simpa [hasTTNode] using hTT)
        simp only [AstNode.otherNode.sizeOf_spec] at hn
        omega
    · intro cs hcs hTT
      cases cs with
      | nil => rfl
      | cons n rest =>
        simp only [hasTTList, Bool.or_eq_false_iff] at hTT
        simp only [List.cons.sizeOf_spec] at hcs
        rw [findTargetsList, ih.1 n (by omega) hTT.1, ih.2 rest (by omega) hTT.2]
        rfl

theorem noTT_targets_list (code : List Char) (tagMap : TagMap) (cs : List AstNode)
    (h : hasTTList cs = false) : findTargetsList code tagMap cs = [] :=
  (noTT_targets code tagMap (sizeOf cs)).2 cs le_rfl h

theorem findTargets_eq_collect (code : List Char) (tagMap : TagMap) : ∀ (k : Nat),
    (∀ n : AstNode, sizeOf n ≤ k → findTargetsNode code tagMap n =
      (collectMatchedNode tagMap n).map (mkRegionTarget code tagMap)) ∧
    (∀ cs : List AstNode, sizeOf cs ≤ k → findTargetsList code tagMap cs =
      (collectMatchedList tagMap cs).map (mkRegionTarget code tagMap)) := by
  intro k
  induction k with
  | zero =>
    constructor
    · intro n hn
      exact absurd hn (by cases n <;> simp)
    · intro cs hcs
      exact absurd hcs (by cases cs <;> simp)
  | succ k ih =>
    constructor
    · intro n hn
      cases n with
      | taggedTemplateExpr t qs qe cs =>
        simp only [AstNode.taggedTemplateExpr.sizeOf_spec] at hn
        rw [findTargetsNode, collectMatchedNode, List.map_append, ih.2 cs (by omega)]
        congr 1
        by_cases h : tagMapHas tagMap t
        · rw [if_pos h, if_pos h]
          rfl
        · rw [if_neg h, if_neg h]
          rfl
      | otherNode s e cs =>
        simp only [AstNode.otherNode.sizeOf_spec] at hn
        rw [findTargetsNode, collectMatchedNode, ih.2 cs (by omega)]
    · intro cs hcs
      cases cs with
      | nil => rfl
      | cons n rest =>
        simp only [List.cons.sizeOf_spec] at hcs
        rw [findTargetsList, collectMatchedList, List.map_append,
          ih.1 n (by omega), ih.2 rest (by omega)]

/-- Separation of targeted ranges in emission order. -/
def sepT (t1 t2 : TransformTarget) : Prop := t1.endIdx ≤ t2.start

theorem targets_sep (code : List Char) (tagMap : TagMap) (len : Nat) : ∀ (k : Nat),
    (∀ n : AstNode, sizeOf n ≤ k → wfNode len n = true → noNestedTTNode n = true →
      (findTargetsNode code tagMap n).Pairwise sepT ∧
      (∀ t ∈ findTargetsNode code tagMap n,
        (nodeSpan n).1 ≤ t.start ∧ t.endIdx ≤ (nodeSpan n).2)) ∧
    (∀ cs : List AstNode, sizeOf cs ≤ k →
      (∀ c ∈ cs, wfNode len c = true) → (∀ c ∈ cs, noNestedTTNode c = true) →
      ∀ lo hi : Nat, (∀ c ∈ cs, lo ≤ (nodeSpan c).1 ∧ (nodeSpan c).2 ≤ hi) →
      cs.Pairwise (fun a b => (nodeSpan a).2 ≤ (nodeSpan b).1) →
      (findTargetsList code tagMap cs).Pairwise sepT ∧
      (∀ t ∈ findTargetsList code tagMap cs, lo ≤ t.start ∧ t.endIdx ≤ hi)) := by
  intro k
  induction k with
  | zero =>
    constructor
    · intro n hn
      exact absurd hn (by cases n <;> simp)
    · intro cs hcs
      exact absurd hcs (by cases cs <;> simp)
  | succ k ih =>
    constructor
    · intro n hn hwf hnn
      cases n with
      | taggedTemplateExpr t qs qe cs =>
        simp only [wfNode, Bool.and_eq_true, decide_eq_true_eq] at hwf
        obtain ⟨⟨⟨⟨hqs, hqe⟩, _⟩, _⟩, _⟩ := hwf
        have hTT : hasTTList cs = false := by
          simpa [noNestedTTNode] using hnn
        rw [findTargetsNode, noTT_targets_list code tagMap cs hTT, List.nil_append]
        by_cases hmatch : tagMapHas tagMap t
        · rw [if_pos hmatch]
          refine ⟨List.pairwise_singleton _ _, ?_⟩
          intro t0 ht0
          rw [List.mem_singleton] at ht0
          subst ht0
          simp only [nodeSpan]
          omega
        · rw [if_neg hmatch]
          exact ⟨List.Pairwise.nil, fun t0 ht0 => absurd ht0 (List.not_mem_nil t0)⟩
      | otherNode s e cs =>
        simp only [wfNode, Bool.and_eq_true, decide_eq_true_eq] at hwf
        obtain ⟨⟨⟨⟨hs, he⟩, hwithin⟩, hsep⟩, hwfl⟩ := hwf
        simp only [AstNode.otherNode.sizeOf_spec] at hn
        have hnl : ∀ c ∈ cs, noNestedTTNode c = true :=
          (noNestedTTList_iff cs).mp (by simpa [noNestedTTNode] using hnn)
        exact ih.2 cs (by omega) ((wfList_iff len cs).mp hwfl) hnl s e
          ((childrenWithin_iff s e cs).mp hwithin) ((siblingsSeparated_iff cs).mp hsep)
    · intro cs hcs hwf hnn lo hi hwithin hsep
      cases cs with
      | nil =>
        exact ⟨List.Pairwise.nil, fun t ht => absurd ht (List.not_mem_nil t)⟩
      | cons c rest =>
        simp only [List.cons.sizeOf_spec] at hcs
        have hwfc : wfNode len c = true := hwf c (List.mem_cons_self _ _)
        have hspanc := wf_span_le len c hwfc
        obtain ⟨hwc, hcontc⟩ := ih.1 c (by omega) hwfc (hnn c (List.mem_cons_self _ _))
        rw [List.pairwise_cons] at hsep
        have hrest := ih.2 rest (by omega)
          (fun c2 h2 => hwf c2 (List.mem_cons_of_mem _ h2))
          (fun c2 h2 => hnn c2 (List.mem_cons_of_mem _ h2))
          ((nodeSpan c).2) hi
          (fun c2 h2 => ⟨hsep.1 c2 h2, (hwithin c2 (List.mem_cons_of_mem _ h2)).2⟩)
          hsep.2
        obtain ⟨hwr, hcontr⟩ := hrest
        have hwithc := hwithin c (List.mem_cons_self _ _)
        rw [findTargetsList, List.pairwise_append]
        refine ⟨⟨hwc, hwr, ?_⟩, ?_⟩
        · intro t1 h1 t2 h2
          have hc1 := hcontc t1 h1
          have hc2 := hcontr t2 h2
          exact Nat.le_trans hc1.2 hc2.1
        · intro t ht
          rcases List.mem_append.mp ht with h | h
          · have hc := hcontc t h
            exact ⟨Nat.le_trans hwithc.1 hc.1, Nat.le_trans hc.2 hwithc.2⟩
          · have hc := hcontr t h
            exact ⟨Nat.le_trans (Nat.le_trans hwithc.1 (Nat.le_trans hspanc hc.1))
              (Nat.le_refl _), hc.2⟩

/-- Claim C7 (amended): every emitted region is the target of a matched
tagged template expression with one delimiter character excluded at each end
of its quasi, its rawContent is the exact source substring between its
offsets, and a construct whose tag is absent from the map yields no region
(all through the first equation); and over a well-formed tree in which no
tagged template is nested inside another, emitted regions never overlap. -/
theorem findTransformTargets_spec (code : List Char) (tagMap : TagMap) (ast : AstNode) :
    findTransformTargets code tagMap ast =
        (collectMatchedNode tagMap ast).map (mkRegionTarget code tagMap) ∧
      (∀ t ∈ findTransformTargets code tagMap ast,
        t.literalContents = jsSubstring code t.start t.endIdx) ∧
      (wfNode code.length ast = true → noNestedTTNode ast = true →
        (findTransformTargets code tagMap ast).Pairwise
          (fun a b => targetsOverlapB a b = false)) := by
  refine ⟨(findTargets_eq_collect code tagMap (sizeOf ast)).1 ast le_rfl, ?_, ?_⟩
  · intro t ht
    rw [findTransformTargets,
      (findTargets_eq_collect code tagMap (sizeOf ast)).1 ast le_rfl] at ht
    obtain ⟨x, _, hx⟩ := List.mem_map.mp ht
    subst hx
    rfl
  · intro hwf hnn
    have hsep := ((targets_sep code tagMap code.length (sizeOf ast)).1 ast le_rfl hwf hnn).1
    refine hsep.imp ?_
    intro a b hab
    simp only [targetsOverlapB, decide_eq_false_iff_not]
    rw [sepT] at hab
    omega

/-- The tag map of the nested counterexample: the one tag css with no output
transforms. -/
def cexTagMap : TagMap :=
  [("css", { postcssConfig := { plugins := [], options := [] }, outputTransforms := [] })]

/-- The source text of the nested counterexample: a css tagged template whose
placeholder holds another css tagged template. -/
def cexCode : List Char :=
  ['c', 's', 's', backtickChar, 'a', ' ', dollarChar, openBraceChar,
   'c', 's', 's', backtickChar, 'b', backtickChar, Char.ofNat 125, ' ', 'c', backtickChar]

/-- The parsed tree of cexCode: the outer tagged template's quasi spans
offsets 3 to 18, the nested one's quasi spans offsets 11 to 14. -/
def cexAst : AstNode :=
  .taggedTemplateExpr "css" 3 18 [.taggedTemplateExpr "css" 11 14 []]

/-- Claim C7, counterexample to the claim as stated: on a well-formed parsed
tree with one configured tagged template nested inside another, the walk
emits two regions whose ranges overlap. -/
theorem findTransformTargets_nested_overlap_cex :
    wfNode cexCode.length cexAst = true ∧
      ∃ t1 t2, findTransformTargets cexCode cexTagMap cexAst = [t1, t2] ∧
        targetsOverlapB t1 t2 = true := by
  refine ⟨rfl, ⟨_, _, rfl, rfl⟩⟩
